import Mathlib

/-!
Shallow embedding of the `lazy-db` storage engine (value codec, container
tree, database lifecycle) and proofs of the specification claims.

Conventions of the embedding:
* A filesystem path is a list of component names; a component name is a
  list of characters. `withExt` mirrors Rust's `Path::with_extension`
  (the extension is the part of the final component after its last dot,
  except that a leading dot with no other dot is not an extension).
* Bytes are natural numbers (< 256 for well-formed data).
* The filesystem is an association list from paths to entries; the opaque
  archive backend (tar build/unpack, compress/decompress) is modelled by
  entries that carry an exact snapshot of a directory subtree, so that
  pack/unpack and compress/decompress are exact inverses, as the spec
  requires of the backend.
* Machine integers are `Nat`/`Int` with explicit two's-complement
  reduction mod `2^w`; floats are their IEEE bit patterns (the spec fixes
  float equality to bit-pattern comparison).
-/

namespace LazyDb

/-! ## Path model -/

/-- A path component (file or directory name), as a character list. -/
abbrev Name := List Char

/-- A filesystem path: a list of components. -/
abbrev Path := List Name

/-- The stem of a file name: everything before the last dot, except that a
name whose only dot is a leading dot has no extension (Rust `file_stem`). -/
def stemName (s : Name) : Name :=
  let r := s.reverse
  let extLen := (r.takeWhile (fun c => c ≠ '.')).length
  if extLen = r.length then s
  else if extLen + 1 = r.length then s
  else s.take (s.length - extLen - 1)

/-- The extension of a file name (Rust `Path::extension`): the part of the
name after its last dot, except that a leading dot with no other dot does
not begin an extension. -/
def extName (s : Name) : Option Name :=
  let r := s.reverse
  let extLen := (r.takeWhile (fun c => c ≠ '.')).length
  if extLen = r.length then none
  else if extLen + 1 = r.length then none
  else some ((r.takeWhile (fun c => c ≠ '.')).reverse)

/-- Rust `Path::set_extension` on a single file name: replace the current
extension (if any) by `e`. -/
def withExtName (s : Name) (e : Name) : Name :=
  if e = [] then stemName s else stemName s ++ '.' :: e

/-- Rust `Path::with_extension`: replace the extension of the final
component of a path. -/
def withExt : Path → Name → Path
  | [], _ => []
  | [n], e => [withExtName n e]
  | n :: rest, e => n :: withExt rest e

/-- Whether `pre` is an initial segment of `q` (used for directory-subtree
membership: `q` lies at or under directory `pre`). -/
def hasPre : Path → Path → Bool
  | [], _ => true
  | _ :: _, [] => false
  | a :: as, b :: bs => if a = b then hasPre as bs else false

/-! ## Version (modelled) -/

/-- Modelled from the spec: `version.rs` is not under `src/`; the spec
describes an immutable triple (major, minor, build). -/
structure Version where
  major : Nat
  minor : Nat
  build : Nat
deriving DecidableEq, Repr

/-- Modelled from the spec: the compatibility predicate of `version.rs`
(missing from `src/`), "true iff `stored.major == running.major`.
No other field participates." -/
def Version.is_compatible (self other : Version) : Bool :=
  self.major == other.major

/-- The running format version, `VERSION` from `lib.rs`:
`Version::new(1, 2, 1)`. -/
def VERSION : Version := ⟨1, 2, 1⟩

/-! ## Type tags -/

/-- The numeric leaf types (widths and signedness of the `new_number!` /
`new_array!` macro instantiations in `lazy_data/writing.rs`; floats are
carried as their IEEE bit patterns). -/
inductive NumTy
  | u8 | u16 | u32 | u64 | u128
  | i8 | i16 | i32 | i64 | i128
  | f32 | f64
deriving DecidableEq, Repr

/-- Payload width in bytes of a numeric leaf type. -/
def NumTy.widthBytes : NumTy → Nat
  | .u8 => 1 | .u16 => 2 | .u32 => 4 | .u64 => 8 | .u128 => 16
  | .i8 => 1 | .i16 => 2 | .i32 => 4 | .i64 => 8 | .i128 => 16
  | .f32 => 4 | .f64 => 8

/-- Whether the numeric type decodes as a signed (two's-complement)
integer. -/
def NumTy.signed : NumTy → Bool
  | .i8 | .i16 | .i32 | .i64 | .i128 => true
  | _ => false

/-- The `LazyType` tag discriminants used by `lazy_data/writing.rs`
(`Void`, `String`, the numeric tags, `Binary`, `True`, `False`, `Array`,
`Link`). -/
inductive LazyType
  | void
  | string
  | num (t : NumTy)
  | binary
  | vTrue
  | vFalse
  | array
  | link
deriving DecidableEq, Repr

/-- Modelled from the spec: the tag-byte converter (`lazy_type/converter.rs`)
is not under `src/`; the spec only requires a one-byte tag per type with
distinct discriminants, so the tags are assigned distinct bytes here. -/
def LazyType.toByte : LazyType → Nat
  | .void => 0
  | .string => 1
  | .num .u8 => 2
  | .num .u16 => 3
  | .num .u32 => 4
  | .num .u64 => 5
  | .num .u128 => 6
  | .num .i8 => 7
  | .num .i16 => 8
  | .num .i32 => 9
  | .num .i64 => 10
  | .num .i128 => 11
  | .num .f32 => 12
  | .num .f64 => 13
  | .binary => 14
  | .vTrue => 15
  | .vFalse => 16
  | .array => 17
  | .link => 18

/-- Inverse of `LazyType.toByte` on its range. -/
def LazyType.fromByte : Nat → Option LazyType
  | 0 => some .void
  | 1 => some .string
  | 2 => some (.num .u8)
  | 3 => some (.num .u16)
  | 4 => some (.num .u32)
  | 5 => some (.num .u64)
  | 6 => some (.num .u128)
  | 7 => some (.num .i8)
  | 8 => some (.num .i16)
  | 9 => some (.num .i32)
  | 10 => some (.num .i64)
  | 11 => some (.num .i128)
  | 12 => some (.num .f32)
  | 13 => some (.num .f64)
  | 14 => some .binary
  | 15 => some .vTrue
  | 16 => some .vFalse
  | 17 => some .array
  | 18 => some .link
  | _ => none

theorem LazyType.fromByte_toByte (t : LazyType) : fromByte (toByte t) = some t := by
  cases t with
  | num n => cases n <;> rfl
  | _ => rfl

theorem LazyType.toByte_inj {a b : LazyType} (h : toByte a = toByte b) : a = b := by
  have ha := fromByte_toByte a
  have hb := fromByte_toByte b
  rw [h, hb] at ha
  exact (Option.some.injEq _ _ ▸ ha).symm

/-! ## Big-endian bytes and two's complement -/

/-- Big-endian byte encoding of `n` into exactly `k` bytes (the semantics
of Rust `to_be_bytes` on the value reduced mod `2^(8k)`). -/
def beBytes : Nat → Nat → List Nat
  | 0, _ => []
  | k + 1, n => beBytes k (n / 256) ++ [n % 256]

/-- Big-endian interpretation of a byte list as a natural number
(the semantics of Rust `from_be_bytes`). -/
def beNat (bytes : List Nat) : Nat :=
  bytes.foldl (fun acc b => acc * 256 + b) 0

/-- Two's-complement representative of the integer `v` at `k` bytes. -/
def toTwos (k : Nat) (v : Int) : Nat :=
  (v % ((2 : Int) ^ (8 * k))).toNat

/-- Reading back a `k`-byte two's-complement value as a signed integer. -/
def fromTwos (k : Nat) (n : Nat) : Int :=
  if n < 2 ^ (8 * k - 1) then (n : Int) else (n : Int) - 2 ^ (8 * k)

theorem beBytes_length (k n : Nat) : (beBytes k n).length = k := by
  induction k generalizing n with
  | zero => rfl
  | succ k ih => simp [beBytes, ih]

theorem beNat_append_singleton (xs : List Nat) (b : Nat) :
    beNat (xs ++ [b]) = beNat xs * 256 + b := by
  simp [beNat, List.foldl_append]

theorem beNat_beBytes (k n : Nat) : beNat (beBytes k n) = n % 2 ^ (8 * k) := by
  induction k generalizing n with
  | zero => simp [beBytes, beNat, Nat.mod_one]
  | succ k ih =>
    rw [beBytes, beNat_append_singleton, ih]
    have h2 : 2 ^ (8 * (k + 1)) = 256 * 2 ^ (8 * k) := by ring
    rw [h2, Nat.mod_mul]
    ring

theorem toTwos_lt (k : Nat) (v : Int) : toTwos k v < 2 ^ (8 * k) := by
  have hpos : (0 : Int) < 2 ^ (8 * k) := by positivity
  have h := Int.emod_lt_of_pos v hpos
  have h0 := Int.emod_nonneg v (ne_of_gt hpos)
  have hcast : ((2 ^ (8 * k) : Nat) : Int) = (2 : Int) ^ (8 * k) := by push_cast; ring
  unfold toTwos
  omega

theorem fromTwos_toTwos (k : Nat) (v : Int) (hk : 0 < k)
    (h1 : -(2 ^ (8 * k - 1)) ≤ v) (h2 : v < 2 ^ (8 * k - 1)) :
    fromTwos k (toTwos k v) = v := by
  have hsplit : (2 : Int) ^ (8 * k) = 2 ^ (8 * k - 1) * 2 := by
    rw [← pow_succ]
    congr 1
    omega
  have hhalf : (0 : Int) < 2 ^ (8 * k - 1) := by positivity
  have hcastN : ((2 ^ (8 * k - 1) : Nat) : Int) = (2 : Int) ^ (8 * k - 1) := by
    push_cast; ring
  have hcastF : ((2 ^ (8 * k) : Nat) : Int) = (2 : Int) ^ (8 * k) := by
    push_cast; ring
  unfold toTwos fromTwos
  by_cases hv : 0 ≤ v
  · have hlt : v < (2 : Int) ^ (8 * k) := by omega
    have hm : v % (2 : Int) ^ (8 * k) = v := Int.emod_eq_of_lt hv hlt
    rw [hm]
    have hcond : v.toNat < 2 ^ (8 * k - 1) := by omega
    rw [if_pos hcond]
    exact Int.toNat_of_nonneg hv
  · have hnn : (0 : Int) ≤ v + 2 ^ (8 * k) := by omega
    have hlt2 : v + 2 ^ (8 * k) < 2 ^ (8 * k) := by omega
    have e1 : (v + 2 ^ (8 * k) * 1) % (2 : Int) ^ (8 * k) = v % 2 ^ (8 * k) :=
      Int.add_mul_emod_self_left v ((2 : Int) ^ (8 * k)) 1
    have e2 : (v + 2 ^ (8 * k)) % (2 : Int) ^ (8 * k) = v + 2 ^ (8 * k) :=
      Int.emod_eq_of_lt hnn hlt2
    have hm : v % (2 : Int) ^ (8 * k) = v + 2 ^ (8 * k) := by
      rw [← e2, ← e1]
      ring_nf
    rw [hm]
    have hcond : ¬ (v + 2 ^ (8 * k)).toNat < 2 ^ (8 * k - 1) := by omega
    rw [if_neg hcond]
    omega

theorem toTwos_of_nonneg (k : Nat) (v : Int) (h0 : 0 ≤ v) (h1 : v < 2 ^ (8 * k)) :
    (toTwos k v : Int) = v := by
  unfold toTwos
  rw [Int.emod_eq_of_lt h0]
  · exact Int.toNat_of_nonneg h0
  · exact_mod_cast h1

theorem NumTy.widthBytes_pos (t : NumTy) : 0 < t.widthBytes := by
  cases t <;> simp [widthBytes]

/-! ## Errors -/

/-- Modelled from the spec: the `error.rs` under `src/` predates the error
variants used by `lazy_database.rs` (`DirNotFound`, `InvalidMetaVersion`,
`IncompatibleVersion`) and the reading-side errors named by the spec
(`TypeMismatch`, `MalformedPayload`); the union is modelled from the
usage sites in `lazy_database.rs` and spec section 7. -/
inductive LDBError
  | ioError
  | dirNotFound (p : Path)
  | fileNotFound (p : Path)
  | invalidMetaVersion (p : Path)
  | incompatibleVersion (v : Version)
  | typeMismatch
  | malformedPayload
deriving DecidableEq, Repr

/-! ## Value codec: writers (from `lazy_data/writing.rs`) -/

namespace LazyData

/-- Writer `LazyData::new_void`: writes the `Void` tag and no payload. -/
def new_void : List Nat := [LazyType.void.toByte]

/-- Writer `LazyData::new_string`: writes the `String` tag then the string's raw
UTF-8 bytes (strings are modelled by their UTF-8 byte sequences). -/
def new_string (value : List Nat) : List Nat :=
  LazyType.string.toByte :: value

/-- The body shared by every `new_number!` / `new_f32` / `new_f64` writer:
the numeric tag byte, then `to_be_bytes` of the value. Unsigned values and
float bit patterns are carried as nonnegative integers; signed values use
two's complement, exactly as `to_be_bytes` does. -/
def new_number (t : NumTy) (value : Int) : List Nat :=
  (LazyType.num t).toByte :: beBytes t.widthBytes (toTwos t.widthBytes value)

/-- Element encoding loop of the `new_array!` macro: each element's
`to_be_bytes`, back to back. -/
def encodeElems (t : NumTy) : List Int → List Nat
  | [] => []
  | v :: vs => beBytes t.widthBytes (toTwos t.widthBytes v) ++ encodeElems t vs

/-- The body shared by every `new_array!` writer: the `Array` tag, the
element-type tag, then the element encodings. -/
def new_array (t : NumTy) (value : List Int) : List Nat :=
  LazyType.array.toByte :: (LazyType.num t).toByte :: encodeElems t value

/-- Writer `LazyData::new_binary`: the `Binary` tag then the raw bytes. -/
def new_binary (value : List Nat) : List Nat :=
  LazyType.binary.toByte :: value

/-- Writer `LazyData::new_bool`: a single tag byte, `True` or `False`, with no
payload. -/
def new_bool (value : Bool) : List Nat :=
  if value then [LazyType.vTrue.toByte] else [LazyType.vFalse.toByte]

/-- Writer `LazyData::new_link`: the `Link` tag then the raw path bytes. -/
def new_link (value : List Nat) : List Nat :=
  LazyType.link.toByte :: value

end LazyData

/-! ## Values and the reading side (modelled from the spec) -/

/-- A typed value of the store. Strings, binary blobs and link paths are
byte sequences; numbers carry an `Int` (unsigned values and float bit
patterns are nonnegative). -/
inductive Value
  | vVoid
  | vBool (b : Bool)
  | vString (bytes : List Nat)
  | vBinary (bytes : List Nat)
  | vLink (bytes : List Nat)
  | vNum (t : NumTy) (v : Int)
  | vArray (t : NumTy) (vs : List Int)
deriving DecidableEq, Repr

/-- The concrete types for which a collect accessor exists (spec 4.2: one
per concrete type — void, each numeric width, string, binary, bool, link,
and each array element type). -/
inductive CollectTy
  | void | bool | string | binary | link
  | num (t : NumTy)
  | array (t : NumTy)
deriving DecidableEq, Repr

/-- The accessor type matching a value. -/
def typeOf : Value → CollectTy
  | .vVoid => .void
  | .vBool _ => .bool
  | .vString _ => .string
  | .vBinary _ => .binary
  | .vLink _ => .link
  | .vNum t _ => .num t
  | .vArray t _ => .array t

/-- Whether an integer is representable at the given numeric type (range
of the source's machine integer / bit-pattern carrier). -/
def numWF (t : NumTy) (v : Int) : Bool :=
  if t.signed then
    decide (-(2 ^ (8 * t.widthBytes - 1)) ≤ v) && decide (v < 2 ^ (8 * t.widthBytes - 1))
  else
    decide (0 ≤ v) && decide (v < 2 ^ (8 * t.widthBytes))

/-- Well-formedness of a value: every number fits its declared width, and
data bytes are bytes. -/
def wfValue : Value → Bool
  | .vNum t v => numWF t v
  | .vArray t vs => vs.all (fun v => numWF t v)
  | _ => true

/-- Modelled from the spec: the numeric payload decoding of the missing
`lazy_data/reading.rs` — fails with a malformed-payload error unless the
remaining byte count equals the declared width, then reads the big-endian
(two's-complement when signed) value. -/
def decodeNumBytes (t : NumTy) (payload : List Nat) : Except LDBError Int :=
  if payload.length = t.widthBytes then
    .ok (if t.signed then fromTwos t.widthBytes (beNat payload)
         else (beNat payload : Int))
  else .error .malformedPayload

/-- Modelled from the spec: the array payload decoding of the missing
`lazy_data/reading.rs` — a repeating fixed-width run to end-of-stream,
malformed if the bytes do not divide evenly by the element width. -/
def decodeElems (t : NumTy) (bytes : List Nat) : Except LDBError (List Int) :=
  if bytes = [] then .ok []
  else if t.widthBytes ≤ bytes.length then
    match decodeNumBytes t (bytes.take t.widthBytes),
          decodeElems t (bytes.drop t.widthBytes) with
    | .ok v, .ok vs => .ok (v :: vs)
    | .error e, _ => .error e
    | _, .error e => .error e
  else .error .malformedPayload
termination_by bytes.length
decreasing_by
  have := t.widthBytes_pos
  simp only [List.length_drop]
  cases bytes with
  | nil => simp_all
  | cons b rest => simp; omega

/-- Modelled from the spec: `decode_payload(bytes, expected type)` of the
missing `lazy_data/reading.rs` — each accessor checks the stored tag
against its own expected type and fails with a type-mismatch error on
disagreement; bool accepts the two boolean tags; arrays additionally check
the element-type tag. -/
def collect (c : CollectTy) (bytes : List Nat) : Except LDBError Value :=
  match bytes with
  | [] => .error .malformedPayload
  | tagB :: rest =>
    match c with
    | .void => if tagB = LazyType.void.toByte then .ok .vVoid else .error .typeMismatch
    | .bool =>
      if tagB = LazyType.vTrue.toByte then .ok (.vBool true)
      else if tagB = LazyType.vFalse.toByte then .ok (.vBool false)
      else .error .typeMismatch
    | .string =>
      if tagB = LazyType.string.toByte then .ok (.vString rest) else .error .typeMismatch
    | .binary =>
      if tagB = LazyType.binary.toByte then .ok (.vBinary rest) else .error .typeMismatch
    | .link =>
      if tagB = LazyType.link.toByte then .ok (.vLink rest) else .error .typeMismatch
    | .num t =>
      if tagB = (LazyType.num t).toByte then
        match decodeNumBytes t rest with
        | .ok v => .ok (.vNum t v)
        | .error e => .error e
      else .error .typeMismatch
    | .array t =>
      if tagB = LazyType.array.toByte then
        match rest with
        | [] => .error .malformedPayload
        | elemTag :: payload =>
          if elemTag = (LazyType.num t).toByte then
            match decodeElems t payload with
            | .ok vs => .ok (.vArray t vs)
            | .error e => .error e
          else .error .typeMismatch
      else .error .typeMismatch

/-- The byte encoding of a value, dispatching to the writer of its type. -/
def encodeValue : Value → List Nat
  | .vVoid => LazyData.new_void
  | .vBool b => LazyData.new_bool b
  | .vString s => LazyData.new_string s
  | .vBinary b => LazyData.new_binary b
  | .vLink l => LazyData.new_link l
  | .vNum t v => LazyData.new_number t v
  | .vArray t vs => LazyData.new_array t vs

/-- Modelled from the spec: `collect_binary` of the missing
`lazy_data/reading.rs` — the `Binary` accessor used by `load_dir` to read
the `.meta` stamp; returns the raw payload bytes. -/
def collect_binary (bytes : List Nat) : Except LDBError (List Nat) :=
  match bytes with
  | [] => .error .malformedPayload
  | tagB :: rest =>
    if tagB = LazyType.binary.toByte then .ok rest else .error .typeMismatch

/-! ## Codec round-trip lemmas -/

theorem decodeNumBytes_encode (t : NumTy) (v : Int) (h : numWF t v = true) :
    decodeNumBytes t (beBytes t.widthBytes (toTwos t.widthBytes v)) = .ok v := by
  have hk := t.widthBytes_pos
  have hlt := toTwos_lt t.widthBytes v
  unfold numWF at h
  unfold decodeNumBytes
  rw [beBytes_length, if_pos rfl, beNat_beBytes, Nat.mod_eq_of_lt hlt]
  by_cases hs : t.signed = true
  · rw [if_pos hs] at h ⊢
    simp only [Bool.and_eq_true, decide_eq_true_eq] at h
    exact congrArg Except.ok (fromTwos_toTwos _ v hk h.1 h.2)
  · rw [if_neg hs] at h ⊢
    simp only [Bool.and_eq_true, decide_eq_true_eq] at h
    exact congrArg Except.ok (toTwos_of_nonneg _ v h.1 h.2)

theorem decodeElems_encodeElems (t : NumTy) (vs : List Int)
    (h : vs.all (fun v => numWF t v) = true) :
    decodeElems t (LazyData.encodeElems t vs) = .ok vs := by
  induction vs with
  | nil => simp [LazyData.encodeElems, decodeElems]
  | cons v vs ih =>
    simp only [List.all_cons, Bool.and_eq_true] at h
    have hk := t.widthBytes_pos
    have hlen : (beBytes t.widthBytes (toTwos t.widthBytes v)).length = t.widthBytes :=
      beBytes_length _ _
    rw [LazyData.encodeElems, decodeElems]
    have hne : beBytes t.widthBytes (toTwos t.widthBytes v) ++
        LazyData.encodeElems t vs ≠ [] := by
      intro hcon
      have hl := congrArg List.length hcon
      simp only [List.length_append, hlen, List.length_nil] at hl
      omega
    rw [if_neg hne]
    have hlen2 : t.widthBytes ≤ (beBytes t.widthBytes (toTwos t.widthBytes v) ++
        LazyData.encodeElems t vs).length := by
      simp only [List.length_append, hlen]
      omega
    rw [if_pos hlen2, List.take_left' hlen, List.drop_left' hlen,
      decodeNumBytes_encode t v h.1, ih h.2]

/-- Round trip of the value codec: decoding the encoding of a well-formed
value at its own type yields the value back. -/
theorem collect_encode (v : Value) (h : wfValue v = true) :
    collect (typeOf v) (encodeValue v) = .ok v := by
  cases v with
  | vVoid => rfl
  | vBool b => cases b <;> rfl
  | vString s => simp [collect, encodeValue, LazyData.new_string, typeOf]
  | vBinary s => simp [collect, encodeValue, LazyData.new_binary, typeOf]
  | vLink s => simp [collect, encodeValue, LazyData.new_link, typeOf]
  | vNum t n =>
    have h' : numWF t n = true := by simpa [wfValue] using h
    simp only [typeOf, encodeValue, LazyData.new_number, collect, if_pos rfl]
    rw [decodeNumBytes_encode t n h']
    simp
  | vArray t vs =>
    have h' : vs.all (fun v => numWF t v) = true := by simpa [wfValue] using h
    simp only [typeOf, encodeValue, LazyData.new_array, collect, if_pos rfl]
    rw [decodeElems_encodeElems t vs h']
    simp

theorem LazyType.toByte_eq_iff (a b : LazyType) : a.toByte = b.toByte ↔ a = b :=
  ⟨LazyType.toByte_inj, fun h => h ▸ rfl⟩

/-- Collecting a value through the accessor of a different type always
fails with the type-mismatch error. -/
theorem collect_mismatch (v : Value) (c : CollectTy) (hne : typeOf v ≠ c) :
    collect c (encodeValue v) = .error .typeMismatch := by
  cases v with
  | vVoid =>
    cases c <;>
      simp_all [collect, encodeValue, LazyData.new_void, typeOf, LazyType.toByte_eq_iff]
  | vBool b =>
    cases b <;> cases c <;>
      simp_all [collect, encodeValue, LazyData.new_bool, typeOf, LazyType.toByte_eq_iff]
  | vString s =>
    cases c <;>
      simp_all [collect, encodeValue, LazyData.new_string, typeOf, LazyType.toByte_eq_iff]
  | vBinary s =>
    cases c <;>
      simp_all [collect, encodeValue, LazyData.new_binary, typeOf, LazyType.toByte_eq_iff]
  | vLink s =>
    cases c <;>
      simp_all [collect, encodeValue, LazyData.new_link, typeOf, LazyType.toByte_eq_iff]
  | vNum t n =>
    cases c <;>
      simp_all [collect, encodeValue, LazyData.new_number, typeOf, LazyType.toByte_eq_iff]
  | vArray t es =>
    cases c <;>
      simp_all [collect, encodeValue, LazyData.new_array, typeOf, LazyType.toByte_eq_iff]

/-! ## Filesystem model

An association list from paths to entries. The opaque archive backend
(`lazy_archive`, an external dependency boundary per the spec) is
modelled by entries carrying exact directory snapshots, making
pack/unpack and compress/decompress exact inverses as the spec demands. -/

/-- A plain entry inside a directory snapshot. -/
inductive PEntry
  | pfile (bytes : List Nat)
  | pdir
deriving DecidableEq, Repr

/-- A packed snapshot: relative paths with their plain entries. -/
abbrev Snapshot := List (Path × PEntry)

/-- A filesystem entry: a regular file with raw bytes, a directory, an
uncompressed pack (tar) of a snapshot, or a compressed pack. -/
inductive Entry
  | efile (bytes : List Nat)
  | edir
  | etar (s : Snapshot)
  | ectar (s : Snapshot)
deriving DecidableEq, Repr

/-- The filesystem: an association list from absolute paths to entries. -/
abbrev FS := List (Path × Entry)

def lookupFS : FS → Path → Option Entry
  | [], _ => none
  | (q, e) :: rest, p => if q = p then some e else lookupFS rest p

/-- Rust `Path::is_dir`. -/
def isDirB (fs : FS) (p : Path) : Bool :=
  match lookupFS fs p with
  | some .edir => true
  | _ => false

/-- Rust `Path::is_file`: the path names a regular file. -/
def isFileB (fs : FS) (p : Path) : Bool :=
  match lookupFS fs p with
  | some .edir => false
  | some _ => true
  | none => false

def removeEntry : FS → Path → FS
  | [], _ => []
  | (q, e) :: rest, p => if q = p then removeEntry rest p else (q, e) :: removeEntry rest p

/-- Create or overwrite the entry at `p`. -/
def setEntry (fs : FS) (p : Path) (e : Entry) : FS :=
  (p, e) :: removeEntry fs p

/-- Rust `fs::remove_dir_all`: removes `p` and everything under it. -/
def removeDirAll : FS → Path → FS
  | [], _ => []
  | (q, e) :: rest, p =>
    if hasPre p q then removeDirAll rest p else (q, e) :: removeDirAll rest p

/-- Helper of `create_dir_all`: create each missing component of `names`
below the already-built prefix `pre`; fail if a component exists as a
non-directory. -/
def mkdirs : FS → Path → List Name → Option FS
  | fs, _, [] => some fs
  | fs, pre, n :: rest =>
    match lookupFS fs (pre ++ [n]) with
    | some .edir => mkdirs fs (pre ++ [n]) rest
    | some _ => none
    | none => mkdirs (setEntry fs (pre ++ [n]) .edir) (pre ++ [n]) rest

/-- Rust `fs::create_dir_all` (fails on the empty path). -/
def create_dir_all (fs : FS) (p : Path) : Option FS :=
  if p = [] then none else mkdirs fs [] p

/-- Rust `fs::File::create` followed by writing `bytes`: creates or
truncates the file; fails if the parent is not a directory or the path is
a directory. -/
def fileCreate (fs : FS) (p : Path) (bytes : List Nat) : Option FS :=
  if p.dropLast = [] || isDirB fs p.dropLast then
    match lookupFS fs p with
    | some .edir => none
    | _ => some (setEntry fs p (.efile bytes))
  else none

/-- Rust `fs::remove_file`. -/
def remove_file (fs : FS) (p : Path) : Option FS :=
  if isFileB fs p then some (removeEntry fs p) else none

def toPlain : Entry → Option PEntry
  | .efile b => some (.pfile b)
  | .edir => some .pdir
  | _ => none

def ofPlain : PEntry → Entry
  | .pfile b => .efile b
  | .pdir => .edir

/-- The snapshot of the subtree strictly under directory `p` (relative
paths), defined when every entry under `p` is plain. -/
def snapshotOf (fs : FS) (p : Path) : Option Snapshot :=
  (fs.filter (fun q => hasPre p q.1 && decide (q.1 ≠ p))).mapM
    (fun q => (toPlain q.2).map (fun pe => (q.1.drop p.length, pe)))

/-- Archive backend `build_tar`: pack the directory `src` into the file
`tarP`. -/
def build_tar (fs : FS) (src tarP : Path) : Option FS :=
  if isDirB fs src then
    (snapshotOf fs src).map (fun s => setEntry fs tarP (.etar s))
  else none

/-- Archive backend `compress_file`. -/
def compress_file (fs : FS) (src out : Path) : Option FS :=
  match lookupFS fs src with
  | some (.etar s) => some (setEntry fs out (.ectar s))
  | _ => none

/-- Archive backend `decompress_file`. -/
def decompress_file (fs : FS) (src out : Path) : Option FS :=
  match lookupFS fs src with
  | some (.ectar s) => some (setEntry fs out (.etar s))
  | _ => none

/-- Recreate a snapshot's tree under `out`. -/
def restoreSnapshot (fs : FS) (out : Path) (s : Snapshot) : FS :=
  s.foldl (fun acc q => setEntry acc (out ++ q.1) (ofPlain q.2)) (setEntry fs out .edir)

/-- Archive backend `unpack_tar`. -/
def unpack_tar (fs : FS) (tarP out : Path) : Option FS :=
  match lookupFS fs tarP with
  | some (.etar s) => some (restoreSnapshot fs out s)
  | _ => none

/-! ## Database lifecycle (`lazy_database.rs`) -/

/-- The reserved metadata leaf name `.meta`. -/
def metaName : Name := ".meta".toList

/-- The reserved working-directory extension `modb`. -/
def modbExt : Name := "modb".toList

/-- The archive extension `ldb` used by `Drop`. -/
def ldbExt : Name := "ldb".toList

/-- The intermediate pack extension `tmp.tar`. -/
def tmpTarExt : Name := "tmp.tar".toList

/-- Structure `LazyDB`: root path plus the compiled/uncompiled flag (`compressed`). -/
structure LazyDB where
  path : Path
  compressed : Bool
deriving DecidableEq, Repr

/-- Operation `LazyDB::init`: create the directory (and intermediates) if absent;
write `.meta` as a binary value of the running version if absent; result
is an uncompressed (Directory-state) handle. -/
def LazyDB.init (fs : FS) (path : Path) : Except LDBError (FS × LazyDB) :=
  match (if isDirB fs path then some fs else create_dir_all fs path : Option FS) with
  | none => .error .ioError
  | some fs1 =>
    if isFileB fs1 (path ++ [metaName]) then .ok (fs1, ⟨path, false⟩)
    else
      match fileCreate fs1 (path ++ [metaName])
          (LazyData.new_binary [VERSION.major, VERSION.minor, VERSION.build]) with
      | none => .error .ioError
      | some fs2 => .ok (fs2, ⟨path, false⟩)

/-- Operation `LazyDB::init_db`: `init` at the path with extension `modb`, then mark
the handle compressed. -/
def LazyDB.init_db (fs : FS) (path : Path) : Except LDBError (FS × LazyDB) :=
  match LazyDB.init fs (withExt path modbExt) with
  | .error e => .error e
  | .ok (fs1, this) => .ok (fs1, { this with compressed := true })

/-- Operation `LazyDB::load_dir`: requires an existing directory, an existing
`.meta` file, a 3-byte stored binary version, and major-version
compatibility; the returned handle is uncompressed. Reading the `.meta`
leaf goes through the binary accessor (`LazyData::load(...).collect_binary()`). -/
def LazyDB.load_dir (fs : FS) (path : Path) : Except LDBError LazyDB :=
  if ¬ isDirB fs path then .error (.dirNotFound path)
  else if ¬ isFileB fs (path ++ [metaName]) then .error (.fileNotFound (path ++ [metaName]))
  else
    match lookupFS fs (path ++ [metaName]) with
    | some (.efile bytes) =>
      match collect_binary bytes with
      | .error e => .error e
      | .ok read_version =>
        match read_version with
        | [a, b, c] =>
          if ¬ VERSION.is_compatible ⟨a, b, c⟩ then .error (.incompatibleVersion ⟨a, b, c⟩)
          else .ok ⟨path, false⟩
        | _ => .error (.invalidMetaVersion (path ++ [metaName]))
    | _ => .error .ioError

/-- Operation `LazyDB::decompile`: decompress the archive to the intermediate pack,
unpack it to `out_path`, remove the intermediate pack. -/
def LazyDB.decompile (fs : FS) (path out_path : Path) : Except LDBError FS :=
  if ¬ isFileB fs path then .error (.fileNotFound path)
  else
    match decompress_file fs path (withExt path tmpTarExt) with
    | none => .error .ioError
    | some fs1 =>
      match unpack_tar fs1 (withExt path tmpTarExt) out_path with
      | none => .error .ioError
      | some fs2 =>
        match remove_file fs2 (withExt path tmpTarExt) with
        | none => .error .ioError
        | some fs3 => .ok fs3

/-- Operation `LazyDB::load_db`: reuse an existing working directory at the derived
`modb` path via `load_dir`, otherwise decompile the archive there, then
`load_dir` it and mark the handle compressed. -/
def LazyDB.load_db (fs : FS) (path : Path) : Except LDBError (FS × LazyDB) :=
  if isDirB fs (withExt path modbExt) then
    match LazyDB.load_dir fs (withExt path modbExt) with
    | .error e => .error e
    | .ok ldb => .ok (fs, ldb)
  else
    match LazyDB.decompile fs path (withExt path modbExt) with
    | .error e => .error e
    | .ok fs1 =>
      match LazyDB.load_dir fs1 (withExt path modbExt) with
      | .error e => .error e
      | .ok ldb => .ok (fs1, { ldb with compressed := true })

/-- Operation `LazyDB::compile`: build the intermediate pack from the working
directory, compress it to `out_path`, remove the intermediate pack. -/
def LazyDB.compile (self : LazyDB) (fs : FS) (out_path : Path) : Option FS :=
  match build_tar fs self.path (withExt self.path tmpTarExt) with
  | none => none
  | some fs1 =>
    match compress_file fs1 (withExt self.path tmpTarExt) out_path with
    | none => none
    | some fs2 => remove_file fs2 (withExt self.path tmpTarExt)

/-- Disposal `Drop for LazyDB`: do nothing unless compressed; attempt `compile` to
the path with extension `ldb`; only on success remove the working
directory tree. -/
def dropLazyDB (self : LazyDB) (fs : FS) : FS :=
  if ¬ self.compressed then fs
  else
    match LazyDB.compile self fs (withExt self.path ldbExt) with
    | none => fs
    | some fs1 => removeDirAll fs1 self.path

/-! ## Container tree (modelled from the spec) -/

/-- Modelled from the spec: `lazy_container.rs` is not under `src/`; a
container is a directory-backed node holding its absolute path
(spec section 4.3). -/
structure LazyContainer where
  path : Path
deriving DecidableEq, Repr

/-- Modelled from the spec: `LazyContainer::load` fails if the path is not
an existing directory. -/
def LazyContainer.load (fs : FS) (path : Path) : Except LDBError LazyContainer :=
  if isDirB fs path then .ok ⟨path⟩ else .error (.dirNotFound path)

/-- Operation `LazyDB::as_container`: the root container of the database. -/
def LazyDB.as_container (self : LazyDB) (fs : FS) : Except LDBError LazyContainer :=
  LazyContainer.load fs self.path

/-- Modelled from the spec: `LazyContainer::data_writer` creates (or
truncates) `path/name` for writing; here it writes `bytes` through. -/
def LazyContainer.data_writer (self : LazyContainer) (fs : FS) (name : Name)
    (bytes : List Nat) : Option FS :=
  fileCreate fs (self.path ++ [name]) bytes

/-- Modelled from the spec: `LazyContainer::read_data` opens `path/name`
lazily; fails with a not-found error if it is not a file. The returned
byte stream is what a subsequent collect call consumes. -/
def LazyContainer.read_data (self : LazyContainer) (fs : FS) (name : Name) :
    Except LDBError (List Nat) :=
  match lookupFS fs (self.path ++ [name]) with
  | some (.efile bytes) => .ok bytes
  | some _ => .error .ioError
  | none => .error (.fileNotFound (self.path ++ [name]))

/-! ## End-to-end scenario (spec section 8, last bullet) -/

/-- The end-to-end compiled round trip: `init_db "db"`, write a value at
leaf `x`, dispose the handle (recompiling to `db.ldb`), reopen via
`load_db` on that archive, read the leaf back and collect it at the
value's type. -/
def scenarioC5 (v : Value) : Except LDBError Value :=
  match LazyDB.init_db ([] : FS) ["db".toList] with
  | .error e => .error e
  | .ok (fs1, db) =>
    match db.as_container fs1 with
    | .error e => .error e
    | .ok con =>
      match con.data_writer fs1 "x".toList (encodeValue v) with
      | none => .error .ioError
      | some fs2 =>
        match LazyDB.load_db (dropLazyDB db fs2) (withExt ["db".toList] ldbExt) with
        | .error e => .error e
        | .ok (fs4, db2) =>
          match db2.as_container fs4 with
          | .error e => .error e
          | .ok con2 =>
            match con2.read_data fs4 "x".toList with
            | .error e => .error e
            | .ok bytes => collect (typeOf v) bytes

/-! ## Filesystem lemmas -/

theorem lookupFS_removeEntry_self (fs : FS) (p : Path) :
    lookupFS (removeEntry fs p) p = none := by
  induction fs with
  | nil => rfl
  | cons hd rest ih =>
    obtain ⟨q, e⟩ := hd
    by_cases h : q = p
    · simp [removeEntry, h, ih]
    · simp [removeEntry, h, lookupFS, ih]

theorem lookupFS_removeEntry_ne (fs : FS) (p q : Path) (h : q ≠ p) :
    lookupFS (removeEntry fs p) q = lookupFS fs q := by
  induction fs with
  | nil => rfl
  | cons hd rest ih =>
    obtain ⟨r, e⟩ := hd
    by_cases hr : r = p
    · subst hr
      simp [removeEntry, lookupFS, ih, Ne.symm h]
    · by_cases hq : r = q
      · subst hq
        simp [removeEntry, hr, lookupFS]
      · simp [removeEntry, hr, lookupFS, hq, ih]

theorem lookupFS_setEntry_self (fs : FS) (p : Path) (e : Entry) :
    lookupFS (setEntry fs p e) p = some e := by
  simp [setEntry, lookupFS]

theorem lookupFS_setEntry_ne (fs : FS) (p : Path) (e : Entry) (q : Path) (h : q ≠ p) :
    lookupFS (setEntry fs p e) q = lookupFS fs q := by
  simp [setEntry, lookupFS, Ne.symm h, lookupFS_removeEntry_ne fs p q h]

theorem hasPre_refl (p : Path) : hasPre p p = true := by
  induction p with
  | nil => rfl
  | cons n rest ih => simp [hasPre, ih]

theorem lookupFS_removeDirAll_under (fs : FS) (p q : Path) (h : hasPre p q = true) :
    lookupFS (removeDirAll fs p) q = none := by
  induction fs with
  | nil => rfl
  | cons hd rest ih =>
    obtain ⟨r, e⟩ := hd
    by_cases hr : hasPre p r = true
    · simp [removeDirAll, hr, ih]
    · have hrq : r ≠ q := by
        intro hcon
        subst hcon
        exact hr h
      simp only [removeDirAll]
      rw [if_neg (by simpa using hr)]
      simp [lookupFS, hrq, ih]

theorem lookupFS_removeDirAll_not_under (fs : FS) (p q : Path) (h : hasPre p q = false) :
    lookupFS (removeDirAll fs p) q = lookupFS fs q := by
  induction fs with
  | nil => rfl
  | cons hd rest ih =>
    obtain ⟨r, e⟩ := hd
    by_cases hr : hasPre p r = true
    · have hrq : r ≠ q := by
        intro hcon
        subst hcon
        rw [hr] at h
        exact absurd h (by simp)
      simp [removeDirAll, hr, lookupFS, hrq, ih]
    · simp only [removeDirAll]
      rw [if_neg (by simpa using hr)]
      by_cases hq : r = q
      · simp [lookupFS, hq]
      · simp [lookupFS, hq, ih]

/-! ## Extension-name lemmas -/

theorem takeWhile_all_append {α : Type} (p : α → Bool) (l1 l2 : List α)
    (h : ∀ a ∈ l1, p a = true) :
    (l1 ++ l2).takeWhile p = l1 ++ l2.takeWhile p := by
  induction l1 with
  | nil => rfl
  | cons a rest ih =>
    have ha : p a = true := h a (by simp)
    simp only [List.cons_append, List.takeWhile_cons, ha, if_true]
    rw [ih (fun b hb => h b (by simp [hb]))]

theorem takeWhile_rev_ext (x e : Name) (he : '.' ∉ e) :
    ((x ++ '.' :: e).reverse.takeWhile (fun c => c ≠ '.')) = e.reverse := by
  have h1 : (x ++ '.' :: e).reverse = e.reverse ++ '.' :: x.reverse := by
    rw [List.reverse_append, List.reverse_cons, List.append_assoc, List.singleton_append]
  rw [h1, takeWhile_all_append]
  · simp [List.takeWhile_cons]
  · intro a ha
    rw [List.mem_reverse] at ha
    simp only [ne_eq, decide_eq_true_eq]
    intro hcon
    subst hcon
    exact he ha

theorem stemName_append (x e : Name) (hx : x ≠ []) (he : '.' ∉ e) :
    stemName (x ++ '.' :: e) = x := by
  have hxpos : 0 < x.length := List.length_pos.mpr hx
  simp only [stemName]
  rw [takeWhile_rev_ext x e he]
  rw [if_neg, if_neg]
  · have harith : (x ++ '.' :: e).length - e.reverse.length - 1 = x.length := by
      simp only [List.length_reverse, List.length_append, List.length_cons]
      omega
    rw [harith]
    exact List.take_left' rfl
  · simp only [List.length_reverse, List.length_append, List.length_cons]
    omega
  · simp only [List.length_reverse, List.length_append, List.length_cons]
    omega

theorem extName_append (x e : Name) (hx : x ≠ []) (he : '.' ∉ e) :
    extName (x ++ '.' :: e) = some e := by
  have hxpos : 0 < x.length := List.length_pos.mpr hx
  simp only [extName]
  rw [takeWhile_rev_ext x e he]
  rw [if_neg, if_neg]
  · rw [List.reverse_reverse]
  · simp only [List.length_reverse, List.length_append, List.length_cons]
    omega
  · simp only [List.length_reverse, List.length_append, List.length_cons]
    omega

theorem stemName_ne_nil (n : Name) (hn : n ≠ []) : stemName n ≠ [] := by
  simp only [stemName]
  split_ifs with h1 h2
  · exact hn
  · exact hn
  · have hle : (n.reverse.takeWhile (fun c => c ≠ '.')).length ≤ n.reverse.length :=
      (List.takeWhile_sublist _).length_le
    rw [List.length_reverse] at hle h1 h2
    intro hcon
    rw [List.take_eq_nil_iff] at hcon
    rcases hcon with hc | hc
    · omega
    · exact hn hc

theorem withExtName_ne_nil (n e : Name) (he : e ≠ []) : withExtName n e ≠ [] := by
  unfold withExtName
  rw [if_neg he]
  simp

theorem stemName_withExtName (n e : Name) (hn : n ≠ []) (he : e ≠ []) (hd : '.' ∉ e) :
    stemName (withExtName n e) = stemName n := by
  unfold withExtName
  rw [if_neg he]
  exact stemName_append (stemName n) e (stemName_ne_nil n hn) hd

theorem extName_withExtName (n e : Name) (hn : n ≠ []) (he : e ≠ []) (hd : '.' ∉ e) :
    extName (withExtName n e) = some e := by
  unfold withExtName
  rw [if_neg he]
  exact extName_append (stemName n) e (stemName_ne_nil n hn) hd

theorem withExtName_comp (n e1 e2 : Name) (hn : n ≠ []) (he1 : e1 ≠ []) (hd1 : '.' ∉ e1)
    (he2 : e2 ≠ []) :
    withExtName (withExtName n e1) e2 = withExtName n e2 := by
  have hu : ∀ m : Name, withExtName m e2 = stemName m ++ '.' :: e2 := by
    intro m
    unfold withExtName
    rw [if_neg he2]
  rw [hu, hu, stemName_withExtName n e1 hn he1 hd1]

theorem ne_withExtName_of_extName (n e : Name) (he : e ≠ []) (hd : '.' ∉ e)
    (hext : extName n ≠ some e) : n ≠ withExtName n e := by
  intro hcon
  by_cases hn : n = []
  · exact withExtName_ne_nil n e he (hcon ▸ hn)
  · have := extName_withExtName n e hn he hd
    rw [← hcon] at this
    exact hext this

/-- The last component of a path, with `withExt` acting on it. -/
theorem withExt_concat (x : Path) (n : Name) (e : Name) :
    withExt (x ++ [n]) e = x ++ [withExtName n e] := by
  induction x with
  | nil => rfl
  | cons m rest ih =>
    cases rest with
    | nil => simp [withExt, ih]
    | cons m2 rest2 => simp [withExt] at ih ⊢; exact ih

theorem withExt_length (p : Path) (e : Name) : (withExt p e).length = p.length := by
  induction p with
  | nil => rfl
  | cons n rest ih =>
    cases rest with
    | nil => rfl
    | cons m rest2 => simp [withExt] at ih ⊢; exact ih

theorem eq_of_hasPre_of_length (a b : Path) (h : hasPre a b = true)
    (hl : b.length ≤ a.length) : a = b := by
  induction a generalizing b with
  | nil =>
    cases b with
    | nil => rfl
    | cons m bs => simp at hl
  | cons n as ih =>
    cases b with
    | nil => simp [hasPre] at h
    | cons m bs =>
      simp only [hasPre] at h
      by_cases hm : n = m
      · subst hm
        rw [if_pos rfl] at h
        simp only [List.length_cons] at hl
        rw [ih bs h (by omega)]
      · rw [if_neg hm] at h
        exact absurd h (by simp)

theorem name_ne_modb_tmptar (nm : Name) :
    nm ≠ withExtName (withExtName nm modbExt) tmpTarExt := by
  have htne : (tmpTarExt : Name) ≠ [] := by decide
  have hu : ∀ m : Name, withExtName m tmpTarExt = stemName m ++ '.' :: tmpTarExt := by
    intro m
    unfold withExtName
    rw [if_neg htne]
  intro hcon
  by_cases hnm : nm = []
  · subst hnm
    exact withExtName_ne_nil (withExtName [] modbExt) tmpTarExt htne hcon.symm
  · have hstem : stemName (withExtName nm modbExt) = stemName nm :=
      stemName_withExtName nm modbExt hnm (by decide) (by decide)
    rw [hu, hstem] at hcon
    have hdecomp : ('.' :: tmpTarExt : Name) = ['.', 't', 'm', 'p'] ++ '.' :: ("tar".toList) := by
      decide
    rw [hdecomp, ← List.append_assoc] at hcon
    have hs2 : stemName nm = stemName nm ++ ['.', 't', 'm', 'p'] := by
      conv_lhs => rw [hcon]
      exact stemName_append (stemName nm ++ ['.', 't', 'm', 'p']) ("tar".toList)
        (by simp) (by decide)
    have hlen := congrArg List.length hs2
    simp at hlen

theorem name_ne_modb_ldb (nm : Name) (hext : extName nm ≠ some ldbExt) :
    nm ≠ withExtName (withExtName nm modbExt) ldbExt := by
  have hlne : (ldbExt : Name) ≠ [] := by decide
  have hu : ∀ m : Name, withExtName m ldbExt = stemName m ++ '.' :: ldbExt := by
    intro m
    unfold withExtName
    rw [if_neg hlne]
  intro hcon
  by_cases hnm : nm = []
  · subst hnm
    exact withExtName_ne_nil (withExtName [] modbExt) ldbExt hlne hcon.symm
  · have hstem : stemName (withExtName nm modbExt) = stemName nm :=
      stemName_withExtName nm modbExt hnm (by decide) (by decide)
    rw [hu, hstem] at hcon
    have : extName nm = some ldbExt := by
      conv_lhs => rw [hcon]
      exact extName_append (stemName nm) ldbExt (stemName_ne_nil nm hnm) (by decide)
    exact hext this

theorem path_ne_ldb_target (p : Path) (x : Path) (nm : Name) (hp : p = x ++ [nm])
    (hext : extName nm ≠ some ldbExt) : p ≠ withExt (withExt p modbExt) ldbExt := by
  subst hp
  rw [withExt_concat, withExt_concat]
  intro hcon
  have h2 : nm = withExtName (withExtName nm modbExt) ldbExt := by
    have hl := congrArg List.getLast? hcon
    simpa [List.getLast?_concat] using hl
  exact name_ne_modb_ldb nm hext h2

theorem path_ne_tmptar_target (p : Path) (x : Path) (nm : Name) (hp : p = x ++ [nm]) :
    p ≠ withExt (withExt p modbExt) tmpTarExt := by
  subst hp
  rw [withExt_concat, withExt_concat]
  intro hcon
  have h2 : nm = withExtName (withExtName nm modbExt) tmpTarExt := by
    have hl := congrArg List.getLast? hcon
    simpa [List.getLast?_concat] using hl
  exact name_ne_modb_tmptar nm h2

/-! ## Structure of `compile` and `Drop` -/

theorem build_tar_eq {fs : FS} {src tarP : Path} {fs' : FS}
    (h : build_tar fs src tarP = some fs') :
    ∃ s, isDirB fs src = true ∧ snapshotOf fs src = some s ∧
      fs' = setEntry fs tarP (.etar s) := by
  unfold build_tar at h
  by_cases hd : isDirB fs src = true
  · rw [if_pos hd] at h
    cases hsnap : snapshotOf fs src with
    | none => rw [hsnap] at h; cases h
    | some s =>
      rw [hsnap] at h
      exact ⟨s, hd, rfl, (Option.some_inj.mp h).symm⟩
  · rw [if_neg hd] at h
    cases h

theorem remove_file_eq {fs : FS} {p : Path} {fs' : FS} (h : remove_file fs p = some fs') :
    fs' = removeEntry fs p := by
  unfold remove_file at h
  by_cases hf : isFileB fs p = true
  · rw [if_pos hf] at h
    exact (Option.some_inj.mp h).symm
  · rw [if_neg hf] at h
    cases h

theorem compile_eq {db : LazyDB} {fs : FS} {out fs1} (h : LazyDB.compile db fs out = some fs1) :
    ∃ s, isDirB fs db.path = true ∧ snapshotOf fs db.path = some s ∧
      fs1 = removeEntry
        (setEntry (setEntry fs (withExt db.path tmpTarExt) (.etar s)) out (.ectar s))
        (withExt db.path tmpTarExt) := by
  unfold LazyDB.compile at h
  cases hbt : build_tar fs db.path (withExt db.path tmpTarExt) with
  | none => rw [hbt] at h; cases h
  | some fsA =>
    rw [hbt] at h
    obtain ⟨s, hd, hsnap, hA⟩ := build_tar_eq hbt
    subst hA
    have hcomp : compress_file (setEntry fs (withExt db.path tmpTarExt) (.etar s))
        (withExt db.path tmpTarExt) out
        = some (setEntry (setEntry fs (withExt db.path tmpTarExt) (.etar s)) out (.ectar s)) := by
      unfold compress_file
      rw [lookupFS_setEntry_self]
    have h2 : (match compress_file (setEntry fs (withExt db.path tmpTarExt) (.etar s))
        (withExt db.path tmpTarExt) out with
      | none => none
      | some fs2 => remove_file fs2 (withExt db.path tmpTarExt)) = some fs1 := h
    rw [hcomp] at h2
    exact ⟨s, hd, hsnap, remove_file_eq h2⟩

theorem compile_lookup {db : LazyDB} {fs : FS} {out fs1}
    (h : LazyDB.compile db fs out = some fs1) (q : Path)
    (hq1 : q ≠ out) (hq2 : q ≠ withExt db.path tmpTarExt) :
    lookupFS fs1 q = lookupFS fs q := by
  obtain ⟨s, _, _, h1⟩ := compile_eq h
  subst h1
  rw [lookupFS_removeEntry_ne _ _ _ hq2, lookupFS_setEntry_ne _ _ _ _ hq1,
    lookupFS_setEntry_ne _ _ _ _ hq2]

theorem compile_out_entry {db : LazyDB} {fs : FS} {out fs1}
    (h : LazyDB.compile db fs out = some fs1) (hne : out ≠ withExt db.path tmpTarExt) :
    ∃ s, snapshotOf fs db.path = some s ∧ lookupFS fs1 out = some (.ectar s) := by
  obtain ⟨s, _, hsnap, h1⟩ := compile_eq h
  subst h1
  rw [lookupFS_removeEntry_ne _ _ _ hne, lookupFS_setEntry_self]
  exact ⟨s, hsnap, rfl⟩

theorem dropLazyDB_lookup (db : LazyDB) (fs : FS) (q : Path)
    (h1 : q ≠ withExt db.path ldbExt) (h2 : q ≠ withExt db.path tmpTarExt)
    (h3 : hasPre db.path q = false) :
    lookupFS (dropLazyDB db fs) q = lookupFS fs q := by
  unfold dropLazyDB
  by_cases hc : db.compressed = true
  · rw [if_neg (by simp [hc])]
    cases hcomp : LazyDB.compile db fs (withExt db.path ldbExt) with
    | none => rfl
    | some fs1 =>
      rw [lookupFS_removeDirAll_not_under _ _ _ h3, compile_lookup hcomp q h1 h2]
  · rw [if_pos (by simp [hc])]

/-! ## `create_dir_all`, `fileCreate` and `load_dir` lemmas -/

theorem mkdirs_preserves (l : List Name) : ∀ (fs : FS) (pre : Path) (fs' : FS),
    mkdirs fs pre l = some fs' →
    ∀ q e, lookupFS fs q = some e → lookupFS fs' q = some e := by
  induction l with
  | nil =>
    intro fs pre fs' h q e hq
    unfold mkdirs at h
    rw [← Option.some_inj.mp h]
    exact hq
  | cons n rest ih =>
    intro fs pre fs' h q e hq
    unfold mkdirs at h
    cases hl : lookupFS fs (pre ++ [n]) with
    | none =>
      rw [hl] at h
      apply ih _ _ _ h
      rw [lookupFS_setEntry_ne]
      · exact hq
      · intro hcon
        rw [hcon] at hq
        rw [hq] at hl
        cases hl
    | some ent =>
      rw [hl] at h
      cases ent with
      | edir => exact ih _ _ _ h q e hq
      | efile b => cases h
      | etar s => cases h
      | ectar s => cases h

theorem mkdirs_dirs (l : List Name) : ∀ (fs : FS) (pre : Path) (fs' : FS),
    mkdirs fs pre l = some fs' →
    ∀ i, 0 < i → i ≤ l.length → lookupFS fs' (pre ++ l.take i) = some .edir := by
  induction l with
  | nil =>
    intro fs pre fs' h i h1 h2
    simp only [List.length_nil] at h2
    omega
  | cons n rest ih =>
    intro fs pre fs' h i h1 h2
    unfold mkdirs at h
    have hstep : ∀ fsb, mkdirs fsb (pre ++ [n]) rest = some fs' →
        lookupFS fsb (pre ++ [n]) = some .edir →
        lookupFS fs' (pre ++ (n :: rest).take i) = some .edir := by
      intro fsb hb hdir
      match i, h1 with
      | 1, _ =>
        simpa using mkdirs_preserves rest fsb (pre ++ [n]) fs' hb (pre ++ [n]) .edir hdir
      | (j + 2), _ =>
        have h2' : j + 1 ≤ rest.length := by
          simpa using h2
        have := ih fsb (pre ++ [n]) fs' hb (j + 1) (by omega) h2'
        simpa [List.append_assoc] using this
    cases hl : lookupFS fs (pre ++ [n]) with
    | none =>
      rw [hl] at h
      exact hstep _ h (lookupFS_setEntry_self _ _ _)
    | some ent =>
      rw [hl] at h
      cases ent with
      | edir => exact hstep _ h hl
      | efile b => cases h
      | etar s => cases h
      | ectar s => cases h

theorem fileCreate_eq {fs : FS} {p : Path} {bytes : List Nat} {fs' : FS}
    (h : fileCreate fs p bytes = some fs') :
    fs' = setEntry fs p (.efile bytes) := by
  unfold fileCreate at h
  by_cases hpar : (p.dropLast = [] || isDirB fs p.dropLast) = true
  · rw [if_pos hpar] at h
    cases hl : lookupFS fs p with
    | none =>
      rw [hl] at h
      exact (Option.some_inj.mp h).symm
    | some ent =>
      rw [hl] at h
      cases ent with
      | edir => cases h
      | efile b => exact (Option.some_inj.mp h).symm
      | etar s => exact (Option.some_inj.mp h).symm
      | ectar s => exact (Option.some_inj.mp h).symm
  · rw [if_neg hpar] at h
    cases h

theorem load_dir_not_dir (fs : FS) (p : Path) (h : isDirB fs p = false) :
    LazyDB.load_dir fs p = .error (.dirNotFound p) := by
  unfold LazyDB.load_dir
  rw [if_pos (by simp [h])]

theorem load_dir_no_meta (fs : FS) (p : Path) (h : isDirB fs p = true)
    (h2 : isFileB fs (p ++ [metaName]) = false) :
    LazyDB.load_dir fs p = .error (.fileNotFound (p ++ [metaName])) := by
  unfold LazyDB.load_dir
  rw [if_neg (by simp [h]), if_pos (by simp [h2])]

theorem isFileB_of_efile {fs : FS} {p : Path} {b : List Nat}
    (h : lookupFS fs p = some (.efile b)) : isFileB fs p = true := by
  unfold isFileB
  rw [h]

theorem load_dir_meta (fs : FS) (p : Path) (bytes : List Nat)
    (h : isDirB fs p = true)
    (hmeta : lookupFS fs (p ++ [metaName]) = some (.efile bytes)) :
    LazyDB.load_dir fs p =
      match collect_binary bytes with
      | .error e => .error e
      | .ok read_version =>
        match read_version with
        | [a, b, c] =>
          if ¬ VERSION.is_compatible ⟨a, b, c⟩ then .error (.incompatibleVersion ⟨a, b, c⟩)
          else .ok ⟨p, false⟩
        | _ => .error (.invalidMetaVersion (p ++ [metaName])) := by
  unfold LazyDB.load_dir
  rw [if_neg (by simp [h]), if_neg (by simp [isFileB_of_efile hmeta]), hmeta]

theorem load_dir_bad_len (fs : FS) (p : Path) (pl : List Nat)
    (h : isDirB fs p = true)
    (hmeta : lookupFS fs (p ++ [metaName]) = some (.efile (LazyType.binary.toByte :: pl)))
    (hlen : pl.length ≠ 3) :
    LazyDB.load_dir fs p = .error (.invalidMetaVersion (p ++ [metaName])) := by
  rw [load_dir_meta fs p _ h hmeta]
  have hcb : collect_binary (LazyType.binary.toByte :: pl) = .ok pl := rfl
  rw [hcb]
  rcases pl with _ | ⟨a, _ | ⟨b, _ | ⟨c, _ | ⟨d, t⟩⟩⟩⟩
  · rfl
  · rfl
  · rfl
  · exact absurd rfl hlen
  · rfl

theorem load_dir_version (fs : FS) (p : Path) (a b c : Nat)
    (h : isDirB fs p = true)
    (hmeta : lookupFS fs (p ++ [metaName]) =
      some (.efile (LazyType.binary.toByte :: [a, b, c]))) :
    LazyDB.load_dir fs p =
      if a = VERSION.major then .ok ⟨p, false⟩
      else .error (.incompatibleVersion ⟨a, b, c⟩) := by
  rw [load_dir_meta fs p _ h hmeta]
  have hcb : collect_binary (LazyType.binary.toByte :: [a, b, c]) = .ok [a, b, c] := rfl
  rw [hcb]
  by_cases ha : a = VERSION.major
  · simp [Version.is_compatible, ha]
  · simp only [Version.is_compatible]
    rw [if_pos, if_neg ha]
    simp only [beq_iff_eq]
    exact fun hcon => ha hcon.symm

theorem mkdirs_lookup_or (l : List Name) : ∀ (fs : FS) (pre : Path) (fs' : FS),
    mkdirs fs pre l = some fs' →
    ∀ q, lookupFS fs' q = lookupFS fs q ∨ lookupFS fs' q = some .edir := by
  induction l with
  | nil =>
    intro fs pre fs' h q
    unfold mkdirs at h
    rw [← Option.some_inj.mp h]
    exact Or.inl rfl
  | cons n rest ih =>
    intro fs pre fs' h q
    unfold mkdirs at h
    cases hl : lookupFS fs (pre ++ [n]) with
    | none =>
      rw [hl] at h
      rcases ih _ _ _ h q with hq | hq
      · by_cases hqn : q = pre ++ [n]
        · subst hqn
          rw [lookupFS_setEntry_self] at hq
          exact Or.inr hq
        · rw [lookupFS_setEntry_ne _ _ _ _ hqn] at hq
          exact Or.inl hq
      · exact Or.inr hq
    | some ent =>
      rw [hl] at h
      cases ent with
      | edir => exact ih _ _ _ h q
      | efile b => cases h
      | etar s => cases h
      | ectar s => cases h

theorem load_dir_ok_shape {fs : FS} {q : Path} {db : LazyDB}
    (h : LazyDB.load_dir fs q = .ok db) : db = ⟨q, false⟩ := by
  by_cases h1 : isDirB fs q = true
  · cases hl : lookupFS fs (q ++ [metaName]) with
    | none =>
      rw [load_dir_no_meta fs q h1 (by unfold isFileB; rw [hl])] at h
      cases h
    | some ent =>
      cases ent with
      | efile bytes =>
        rw [load_dir_meta fs q bytes h1 hl] at h
        cases hcb : collect_binary bytes with
        | error e =>
          simp only [hcb] at h
          exact absurd h (by simp)
        | ok rv =>
          simp only [hcb] at h
          rcases rv with _ | ⟨a, _ | ⟨b, _ | ⟨c, _ | ⟨d, t⟩⟩⟩⟩
          · simp at h
          · simp at h
          · simp at h
          · simp only [] at h
            split_ifs at h
            injection h with h'
            exact h'.symm
          · simp at h
      | edir =>
        rw [load_dir_no_meta fs q h1 (by unfold isFileB; rw [hl])] at h
        cases h
      | etar s =>
        unfold LazyDB.load_dir at h
        rw [if_neg (by simp [h1]),
          if_neg (by simp [show isFileB fs (q ++ [metaName]) = true by
            unfold isFileB; rw [hl]]), hl] at h
        cases h
      | ectar s =>
        unfold LazyDB.load_dir at h
        rw [if_neg (by simp [h1]),
          if_neg (by simp [show isFileB fs (q ++ [metaName]) = true by
            unfold isFileB; rw [hl]]), hl] at h
        cases h
  · rw [load_dir_not_dir fs q (by simpa using h1)] at h
    cases h

theorem load_db_shape {fs : FS} {p : Path} {fs1 : FS} {db : LazyDB}
    (h : LazyDB.load_db fs p = .ok (fs1, db)) : db.path = withExt p modbExt := by
  unfold LazyDB.load_db at h
  by_cases hd : isDirB fs (withExt p modbExt) = true
  · rw [if_pos hd] at h
    cases hld : LazyDB.load_dir fs (withExt p modbExt) with
    | error e => rw [hld] at h; cases h
    | ok ldb =>
      rw [hld] at h
      injection h with h'
      have hpair : (fs, ldb) = (fs1, db) := h'
      have hdb : db = ldb := (Prod.mk.injEq _ _ _ _ ▸ hpair).2.symm
      rw [hdb, load_dir_ok_shape hld]
  · rw [if_neg hd] at h
    cases hdc : LazyDB.decompile fs p (withExt p modbExt) with
    | error e => rw [hdc] at h; cases h
    | ok fsd =>
      rw [hdc] at h
      cases hld : LazyDB.load_dir fsd (withExt p modbExt) with
      | error e =>
        simp only [hld] at h
        exact absurd h (by simp)
      | ok ldb =>
        simp only [hld] at h
        injection h with h'
        have hpair : (fsd, { ldb with compressed := true }) = (fs1, db) := h'
        have hdb : db = { ldb with compressed := true } :=
          (Prod.mk.injEq _ _ _ _ ▸ hpair).2.symm
        rw [hdb]
        have := load_dir_ok_shape hld
        rw [this]

/-- The whole C5 pipeline reduces, independently of the stored value, to
decoding the written bytes. -/
theorem scenarioC5_reduces (v : Value) :
    scenarioC5 v = collect (typeOf v) (encodeValue v) := rfl

/-! ## Claim theorems -/

/-- Claim C2: for every supported scalar type and representable value
(boundaries included; floats are carried as bit patterns, so NaN equality
is bit-pattern equality as the spec prescribes), decoding the encoding at
the value's own type yields the value; and every array of a fixed-width
element type, the empty one included, round-trips through
`new_array`/collect. -/
theorem claim_C2 :
    (∀ v : Value, wfValue v = true → collect (typeOf v) (encodeValue v) = .ok v) ∧
    (∀ (t : NumTy) (es : List Int), es.all (fun e => numWF t e) = true →
      collect (.array t) (LazyData.new_array t es) = .ok (.vArray t es)) := by
  constructor
  · exact collect_encode
  · intro t es h
    exact collect_encode (.vArray t es) (by simpa [wfValue] using h)

set_option maxRecDepth 10000 in
/-- Witness for C2 at concrete boundary inputs: the minimum `i128`, `-1`
as `i8`, and the empty `u16` array. -/
theorem claim_C2_witness :
    (wfValue (.vNum .i128 (-(2 ^ 127))) = true ∧
      collect (typeOf (.vNum .i128 (-(2 ^ 127)))) (encodeValue (.vNum .i128 (-(2 ^ 127)))) =
        .ok (.vNum .i128 (-(2 ^ 127)))) ∧
    (wfValue (.vNum .i8 (-1)) = true ∧
      collect (typeOf (.vNum .i8 (-1))) (encodeValue (.vNum .i8 (-1))) =
        .ok (.vNum .i8 (-1))) ∧
    (([] : List Int).all (fun e => numWF .u16 e) = true ∧
      collect (.array .u16) (LazyData.new_array .u16 []) = .ok (.vArray .u16 [])) :=
  ⟨⟨by decide, claim_C2.1 _ (by decide)⟩,
   ⟨by decide, claim_C2.1 _ (by decide)⟩,
   ⟨by decide, claim_C2.2 .u16 [] (by decide)⟩⟩

/-- Claim C7: collecting a value encoded under one type tag through any
distinct type's accessor fails with the type-mismatch error and never
coerces. -/
theorem claim_C7 (v : Value) (c : CollectTy) (hne : typeOf v ≠ c) :
    collect c (encodeValue v) = .error .typeMismatch :=
  collect_mismatch v c hne

/-- Witness for C7: a `u8` value collected as a string, and a `u16` array
collected as a `u32` array. -/
theorem claim_C7_witness :
    (typeOf (.vNum .u8 5) ≠ CollectTy.string ∧
      collect .string (encodeValue (.vNum .u8 5)) = .error .typeMismatch) ∧
    (typeOf (.vArray .u16 [7]) ≠ CollectTy.array .u32 ∧
      collect (.array .u32) (encodeValue (.vArray .u16 [7])) = .error .typeMismatch) :=
  ⟨⟨by decide, claim_C7 _ _ (by decide)⟩, ⟨by decide, claim_C7 _ _ (by decide)⟩⟩

/-- Claim C8: the boolean encoder writes exactly one byte — the `True` tag
for `true`, the distinct `False` tag for `false` — with no payload, and
the two encodings are distinct single bytes. -/
theorem claim_C8 :
    LazyData.new_bool true = [LazyType.vTrue.toByte] ∧
    LazyData.new_bool false = [LazyType.vFalse.toByte] ∧
    LazyType.vTrue.toByte ≠ LazyType.vFalse.toByte ∧
    (∀ b : Bool, (LazyData.new_bool b).length = 1) ∧
    LazyData.new_bool true ≠ LazyData.new_bool false := by
  refine ⟨rfl, rfl, by decide, ?_, by decide⟩
  intro b
  cases b <;> rfl

/-- Claim C5: initialising a compiled database with `init_db`, writing a
well-formed value as a leaf, disposing the handle, and reopening the
resulting `.ldb` archive with `load_db` reproduces the same value. -/
theorem claim_C5 (v : Value) (hv : wfValue v = true) : scenarioC5 v = .ok v := by
  rw [scenarioC5_reduces v]
  exact collect_encode v hv

/-- Witness for C5 at the concrete value `u8 21` (and a boolean). -/
theorem claim_C5_witness :
    (wfValue (.vNum .u8 21) = true ∧ scenarioC5 (.vNum .u8 21) = .ok (.vNum .u8 21)) ∧
    (wfValue (.vBool true) = true ∧ scenarioC5 (.vBool true) = .ok (.vBool true)) :=
  ⟨⟨by decide, claim_C5 _ (by decide)⟩, ⟨by decide, claim_C5 _ (by decide)⟩⟩

/-- Claim C3: `load_dir` fails exactly on the four listed conditions, each
with its own error kind — not a directory (`DirNotFound`), missing `.meta`
(`FileNotFound`), a stored binary payload whose length is not 3
(`InvalidMetaVersion`), a stored major different from the running major
(`IncompatibleVersion`) — and succeeds with an uncompressed
(Directory-state) handle otherwise. -/
theorem claim_C3 (fs : FS) (p : Path) :
    (isDirB fs p = false → LazyDB.load_dir fs p = .error (.dirNotFound p)) ∧
    (isDirB fs p = true → isFileB fs (p ++ [metaName]) = false →
      LazyDB.load_dir fs p = .error (.fileNotFound (p ++ [metaName]))) ∧
    (∀ pl, isDirB fs p = true →
      lookupFS fs (p ++ [metaName]) = some (.efile (LazyType.binary.toByte :: pl)) →
      pl.length ≠ 3 →
      LazyDB.load_dir fs p = .error (.invalidMetaVersion (p ++ [metaName]))) ∧
    (∀ a b c, isDirB fs p = true →
      lookupFS fs (p ++ [metaName]) = some (.efile (LazyType.binary.toByte :: [a, b, c])) →
      a ≠ VERSION.major →
      LazyDB.load_dir fs p = .error (.incompatibleVersion ⟨a, b, c⟩)) ∧
    (∀ a b c, isDirB fs p = true →
      lookupFS fs (p ++ [metaName]) = some (.efile (LazyType.binary.toByte :: [a, b, c])) →
      a = VERSION.major →
      LazyDB.load_dir fs p = .ok ⟨p, false⟩) := by
  refine ⟨load_dir_not_dir fs p, load_dir_no_meta fs p, ?_, ?_, ?_⟩
  · intro pl h hmeta hlen
    exact load_dir_bad_len fs p pl h hmeta hlen
  · intro a b c h hmeta ha
    rw [load_dir_version fs p a b c h hmeta, if_neg ha]
  · intro a b c h hmeta ha
    rw [load_dir_version fs p a b c h hmeta, if_pos ha]

/-- Witness for C3 on concrete filesystems: a missing directory, a
directory without `.meta`, a 2-byte stamp, a major mismatch, and a
compatible stamp differing in minor and build. -/
theorem claim_C3_witness :
    (isDirB [] ["db".toList] = false ∧
      LazyDB.load_dir [] ["db".toList] = .error (.dirNotFound ["db".toList])) ∧
    (isDirB [(["db".toList], .edir)] ["db".toList] = true ∧
      isFileB [(["db".toList], .edir)] (["db".toList] ++ [metaName]) = false ∧
      LazyDB.load_dir [(["db".toList], .edir)] ["db".toList] =
        .error (.fileNotFound (["db".toList] ++ [metaName]))) ∧
    (LazyDB.load_dir
        [(["db".toList], .edir),
         (["db".toList] ++ [metaName], .efile (LazyType.binary.toByte :: [1, 2]))]
        ["db".toList] = .error (.invalidMetaVersion (["db".toList] ++ [metaName]))) ∧
    (LazyDB.load_dir
        [(["db".toList], .edir),
         (["db".toList] ++ [metaName], .efile (LazyType.binary.toByte :: [2, 0, 0]))]
        ["db".toList] = .error (.incompatibleVersion ⟨2, 0, 0⟩)) ∧
    (LazyDB.load_dir
        [(["db".toList], .edir),
         (["db".toList] ++ [metaName], .efile (LazyType.binary.toByte :: [1, 9, 9]))]
        ["db".toList] = .ok ⟨["db".toList], false⟩) :=
  ⟨⟨by decide, (claim_C3 [] ["db".toList]).1 (by decide)⟩,
   ⟨by decide, by decide,
     (claim_C3 [(["db".toList], .edir)] ["db".toList]).2.1 (by decide) (by decide)⟩,
   (claim_C3 _ ["db".toList]).2.2.1 [1, 2] (by decide) (by decide) (by decide),
   (claim_C3 _ ["db".toList]).2.2.2.1 2 0 0 (by decide) (by decide) (by decide),
   (claim_C3 _ ["db".toList]).2.2.2.2 1 9 9 (by decide) (by decide) (by decide)⟩

/-- Claim C4: disposal of a compressed (Compiled-state) handle attempts
`compile`; when `compile` fails the filesystem is left untouched (the
working directory fully intact); only when it succeeds is the whole
working-directory tree removed; disposal of an uncompressed
(Directory-state) handle changes nothing. -/
theorem claim_C4 (db : LazyDB) (fs : FS) :
    (db.compressed = false → dropLazyDB db fs = fs) ∧
    (db.compressed = true →
      (LazyDB.compile db fs (withExt db.path ldbExt) = none → dropLazyDB db fs = fs) ∧
      (∀ fs1, LazyDB.compile db fs (withExt db.path ldbExt) = some fs1 →
        dropLazyDB db fs = removeDirAll fs1 db.path ∧
        lookupFS (dropLazyDB db fs) db.path = none)) := by
  constructor
  · intro hc
    unfold dropLazyDB
    rw [if_pos (by simp [hc])]
  · intro hc
    constructor
    · intro hnone
      unfold dropLazyDB
      rw [if_neg (by simp [hc]), hnone]
    · intro fs1 hsome
      have hd : dropLazyDB db fs = removeDirAll fs1 db.path := by
        unfold dropLazyDB
        rw [if_neg (by simp [hc]), hsome]
      refine ⟨hd, ?_⟩
      rw [hd]
      exact lookupFS_removeDirAll_under _ _ _ (hasPre_refl _)

/-- Witness for C4: a Directory-state handle leaves a concrete filesystem
unchanged; a Compiled-state handle over a concrete working directory
compiles and removes the tree. -/
theorem claim_C4_witness :
    (dropLazyDB ⟨["db.modb".toList], false⟩ [(["db.modb".toList], .edir)] =
      [(["db.modb".toList], .edir)]) ∧
    (dropLazyDB ⟨["db.modb".toList], true⟩ [(["db.modb".toList], .edir)] =
      removeDirAll [(["db.ldb".toList], .ectar []), (["db.modb".toList], .edir)]
        ["db.modb".toList] ∧
     lookupFS (dropLazyDB ⟨["db.modb".toList], true⟩ [(["db.modb".toList], .edir)])
        ["db.modb".toList] = none) :=
  ⟨(claim_C4 ⟨["db.modb".toList], false⟩ _).1 rfl,
   (claim_C4 ⟨["db.modb".toList], true⟩ _).2 rfl |>.2
     [(["db.ldb".toList], .ectar []), (["db.modb".toList], .edir)] (by decide)⟩

/-- Claim C6: the version-compatibility predicate holds exactly when the
major components agree (no other field participates), and consequently
`load_dir` rejects a stored major different from the running one with
`IncompatibleVersion` and accepts any stored version with the running
major, whatever its minor and build. -/
theorem claim_C6 :
    (∀ s r : Version, s.is_compatible r = true ↔ s.major = r.major) ∧
    (∀ (fs : FS) (p : Path) (a b c : Nat), isDirB fs p = true →
      lookupFS fs (p ++ [metaName]) = some (.efile (LazyType.binary.toByte :: [a, b, c])) →
      (a ≠ VERSION.major →
        LazyDB.load_dir fs p = .error (.incompatibleVersion ⟨a, b, c⟩)) ∧
      (a = VERSION.major → LazyDB.load_dir fs p = .ok ⟨p, false⟩)) := by
  constructor
  · intro s r
    unfold Version.is_compatible
    exact beq_iff_eq
  · intro fs p a b c h hmeta
    constructor
    · intro ha
      rw [load_dir_version fs p a b c h hmeta, if_neg ha]
    · intro ha
      rw [load_dir_version fs p a b c h hmeta, if_pos ha]

/-- Witness for C6: same major with different minor and build loads; a
bumped major is rejected; the predicate agrees with major equality. -/
theorem claim_C6_witness :
    (Version.is_compatible ⟨1, 2, 1⟩ ⟨1, 7, 7⟩ = true ↔ (1 : Nat) = 1) ∧
    (LazyDB.load_dir
        [(["db".toList], .edir),
         (["db".toList] ++ [metaName], .efile (LazyType.binary.toByte :: [3, 2, 1]))]
        ["db".toList] = .error (.incompatibleVersion ⟨3, 2, 1⟩)) ∧
    (LazyDB.load_dir
        [(["db".toList], .edir),
         (["db".toList] ++ [metaName], .efile (LazyType.binary.toByte :: [1, 0, 9]))]
        ["db".toList] = .ok ⟨["db".toList], false⟩) :=
  ⟨claim_C6.1 ⟨1, 2, 1⟩ ⟨1, 7, 7⟩,
   (claim_C6.2 _ ["db".toList] 3 2 1 (by decide) (by decide)).1 (by decide),
   (claim_C6.2 _ ["db".toList] 1 0 9 (by decide) (by decide)).2 rfl⟩

/-- Counterexample to claim C1 as stated: on a filesystem where the
derived cache directory `db.modb` (with a valid `.meta`) already exists,
`load_db "db.ldb"` reuses it via `load_dir`, but the returned handle has
`compressed = false` — the Directory state, not the Compiled state the
claim asserts — and its disposal leaves the filesystem unchanged instead
of recompiling and removing the working directory. -/
theorem claim_C1_counterexample :
    isDirB
      [(["db.modb".toList], .edir),
       (["db.modb".toList] ++ [metaName], .efile (LazyType.binary.toByte :: [1, 2, 1]))]
      (withExt ["db.ldb".toList] modbExt) = true ∧
    LazyDB.load_db
      [(["db.modb".toList], .edir),
       (["db.modb".toList] ++ [metaName], .efile (LazyType.binary.toByte :: [1, 2, 1]))]
      ["db.ldb".toList] =
      .ok ([(["db.modb".toList], .edir),
            (["db.modb".toList] ++ [metaName],
              .efile (LazyType.binary.toByte :: [1, 2, 1]))],
           ⟨["db.modb".toList], false⟩) ∧
    dropLazyDB ⟨["db.modb".toList], false⟩
      [(["db.modb".toList], .edir),
       (["db.modb".toList] ++ [metaName], .efile (LazyType.binary.toByte :: [1, 2, 1]))] =
      [(["db.modb".toList], .edir),
       (["db.modb".toList] ++ [metaName], .efile (LazyType.binary.toByte :: [1, 2, 1]))] := by
  refine ⟨by decide, by rfl, by rfl⟩

/-- Claim C1 as amended: when the derived cache directory already exists,
`load_db` reuses it directly through `load_dir` without decompressing and
without touching the filesystem, and the handle it returns is in the
Directory state (`compressed = false`), so its disposal changes nothing on
disk (it does not recompile the working directory into the archive). -/
theorem claim_C1 (fs : FS) (p : Path) (h : isDirB fs (withExt p modbExt) = true) :
    LazyDB.load_db fs p =
      (LazyDB.load_dir fs (withExt p modbExt)).map (fun db => (fs, db)) ∧
    (∀ fs1 db, LazyDB.load_db fs p = .ok (fs1, db) →
      fs1 = fs ∧ db.compressed = false ∧ ∀ fs2, dropLazyDB db fs2 = fs2) := by
  have hmain : LazyDB.load_db fs p =
      (LazyDB.load_dir fs (withExt p modbExt)).map (fun db => (fs, db)) := by
    unfold LazyDB.load_db
    rw [if_pos (by simp [h])]
    cases hld : LazyDB.load_dir fs (withExt p modbExt) with
    | error e => simp [Except.map]
    | ok ldb => simp [Except.map]
  refine ⟨hmain, ?_⟩
  intro fs1 db hdb
  rw [hmain] at hdb
  cases hld : LazyDB.load_dir fs (withExt p modbExt) with
  | error e =>
    rw [hld] at hdb
    simp [Except.map] at hdb
  | ok ldb =>
    rw [hld] at hdb
    simp only [Except.map, Except.ok.injEq, Prod.mk.injEq] at hdb
    obtain ⟨hfs, hdbeq⟩ := hdb
    have hshape := load_dir_ok_shape hld
    refine ⟨hfs.symm, ?_, ?_⟩
    · rw [← hdbeq, hshape]
    · intro fs2
      unfold dropLazyDB
      rw [if_pos]
      rw [← hdbeq, hshape]
      simp

/-- Witness for the amended C1 on the concrete pre-existing cache
directory. -/
theorem claim_C1_witness :
    isDirB
      [(["db.modb".toList], .edir),
       (["db.modb".toList] ++ [metaName], .efile (LazyType.binary.toByte :: [1, 2, 1]))]
      (withExt ["db.ldb".toList] modbExt) = true ∧
    LazyDB.load_db
      [(["db.modb".toList], .edir),
       (["db.modb".toList] ++ [metaName], .efile (LazyType.binary.toByte :: [1, 2, 1]))]
      ["db.ldb".toList] =
      (LazyDB.load_dir
        [(["db.modb".toList], .edir),
         (["db.modb".toList] ++ [metaName], .efile (LazyType.binary.toByte :: [1, 2, 1]))]
        (withExt ["db.ldb".toList] modbExt)).map
        (fun db =>
          ([(["db.modb".toList], .edir),
            (["db.modb".toList] ++ [metaName],
              .efile (LazyType.binary.toByte :: [1, 2, 1]))], db)) :=
  ⟨by decide,
   (claim_C1
     [(["db.modb".toList], .edir),
      (["db.modb".toList] ++ [metaName], .efile (LazyType.binary.toByte :: [1, 2, 1]))]
     ["db.ldb".toList] (by decide)).1⟩

/-- Claim C9: a successful `init` returns a Directory-state handle over a
directory that exists (created together with its intermediates when it was
absent) and contains the reserved `.meta` leaf; an already-present `.meta`
is left byte-for-byte unchanged, and only an absent `.meta` is written, as
the binary encoding of the current version, whose stored payload is the
3-byte version stamp. -/
theorem claim_C9 (fs : FS) (p : Path) (fs' : FS) (db : LazyDB)
    (h : LazyDB.init fs p = .ok (fs', db)) :
    db = ⟨p, false⟩ ∧
    isDirB fs' p = true ∧
    (isDirB fs p = false → ∀ i, 0 < i → i ≤ p.length → isDirB fs' (p.take i) = true) ∧
    isFileB fs' (p ++ [metaName]) = true ∧
    (∀ bytes, lookupFS fs (p ++ [metaName]) = some (.efile bytes) →
      lookupFS fs' (p ++ [metaName]) = some (.efile bytes)) ∧
    (lookupFS fs (p ++ [metaName]) = none →
      lookupFS fs' (p ++ [metaName]) =
        some (.efile (LazyData.new_binary [VERSION.major, VERSION.minor, VERSION.build]))) ∧
    collect_binary (LazyData.new_binary [VERSION.major, VERSION.minor, VERSION.build]) =
      .ok [VERSION.major, VERSION.minor, VERSION.build] ∧
    [VERSION.major, VERSION.minor, VERSION.build].length = 3 := by
  unfold LazyDB.init at h
  cases hs : (if isDirB fs p then some fs else create_dir_all fs p : Option FS) with
  | none => rw [hs] at h; cases h
  | some fs1 =>
    rw [hs] at h
    have hfacts : (∀ q e, lookupFS fs q = some e → lookupFS fs1 q = some e) ∧
        (∀ q, lookupFS fs1 q = lookupFS fs q ∨ lookupFS fs1 q = some .edir) ∧
        isDirB fs1 p = true ∧
        (isDirB fs p = false → ∀ i, 0 < i → i ≤ p.length →
          isDirB fs1 (p.take i) = true) := by
      by_cases hd : isDirB fs p = true
      · rw [if_pos hd] at hs
        have hfs1 : fs1 = fs := (Option.some_inj.mp hs).symm
        subst hfs1
        exact ⟨fun q e hq => hq, fun q => Or.inl rfl, hd,
          fun hdf => absurd hd (by simp [hdf])⟩
      · rw [if_neg hd] at hs
        unfold create_dir_all at hs
        by_cases hp : p = []
        · rw [if_pos hp] at hs; cases hs
        · rw [if_neg hp] at hs
          refine ⟨mkdirs_preserves p fs [] fs1 hs, mkdirs_lookup_or p fs [] fs1 hs, ?_, ?_⟩
          · have hdd := mkdirs_dirs p fs [] fs1 hs p.length (List.length_pos.mpr hp) le_rfl
            rw [show ([] : Path) ++ p.take p.length = p by simp] at hdd
            unfold isDirB
            rw [hdd]
          · intro _ i hi hle
            have hdd := mkdirs_dirs p fs [] fs1 hs i hi hle
            rw [show ([] : Path) ++ p.take i = p.take i by simp] at hdd
            unfold isDirB
            rw [hdd]
    obtain ⟨hA, hB, hC, hD⟩ := hfacts
    replace h : (if isFileB fs1 (p ++ [metaName]) = true
        then (Except.ok (fs1, ⟨p, false⟩) : Except LDBError (FS × LazyDB))
        else match fileCreate fs1 (p ++ [metaName])
            (LazyData.new_binary [VERSION.major, VERSION.minor, VERSION.build]) with
          | none => .error .ioError
          | some fs2 => .ok (fs2, ⟨p, false⟩)) = .ok (fs', db) := h
    by_cases hm : isFileB fs1 (p ++ [metaName]) = true
    · rw [if_pos hm] at h
      injection h with h'
      have hfs' : fs' = fs1 := ((Prod.mk.injEq _ _ _ _).mp h').1.symm
      have hdb : db = ⟨p, false⟩ := ((Prod.mk.injEq _ _ _ _).mp h').2.symm
      subst hfs'
      refine ⟨hdb, hC, hD, hm, ?_, ?_, rfl, rfl⟩
      · intro bytes hb
        exact hA _ _ hb
      · intro hnone
        exfalso
        rcases hB (p ++ [metaName]) with hq | hq
        · unfold isFileB at hm
          rw [hq, hnone] at hm
          exact absurd hm (by simp)
        · unfold isFileB at hm
          rw [hq] at hm
          exact absurd hm (by simp)
    · rw [if_neg hm] at h
      cases hfc : fileCreate fs1 (p ++ [metaName])
          (LazyData.new_binary [VERSION.major, VERSION.minor, VERSION.build]) with
      | none => rw [hfc] at h; cases h
      | some fs2 =>
        rw [hfc] at h
        injection h with h'
        have hfs' : fs' = fs2 := ((Prod.mk.injEq _ _ _ _).mp h').1.symm
        have hdb : db = ⟨p, false⟩ := ((Prod.mk.injEq _ _ _ _).mp h').2.symm
        have hset := fileCreate_eq hfc
        subst hfs'
        have hne1 : p ≠ p ++ [metaName] := by
          intro hcon
          have hl := congrArg List.length hcon
          simp at hl
        have hlkp : lookupFS fs' p = lookupFS fs1 p := by
          rw [hset]
          exact lookupFS_setEntry_ne _ _ _ _ hne1
        refine ⟨hdb, ?_, ?_, ?_, ?_, ?_, rfl, rfl⟩
        · unfold isDirB at hC ⊢
          rw [hlkp]
          exact hC
        · intro hdf i hi hle
          have hnei : p.take i ≠ p ++ [metaName] := by
            intro hcon
            have hl := congrArg List.length hcon
            simp at hl
            omega
          have hlki : lookupFS fs' (p.take i) = lookupFS fs1 (p.take i) := by
            rw [hset]
            exact lookupFS_setEntry_ne _ _ _ _ hnei
          have := hD hdf i hi hle
          unfold isDirB at this ⊢
          rw [hlki]
          exact this
        · refine isFileB_of_efile (b := LazyData.new_binary
            [VERSION.major, VERSION.minor, VERSION.build]) ?_
          rw [hset]
          exact lookupFS_setEntry_self _ _ _
        · intro bytes hb
          exact absurd (isFileB_of_efile (hA _ _ hb)) hm
        · intro _
          rw [hset]
          exact lookupFS_setEntry_self _ _ _

/-- Witness for C9: `init` on the empty filesystem at the two-component
path `a/db` creates the directory, its intermediate, and the `.meta`
stamp. -/
theorem claim_C9_witness :
    (LazyDB.init ([] : FS) ["a".toList, "db".toList] =
      .ok ([(["a".toList, "db".toList] ++ [metaName],
              .efile (LazyType.binary.toByte :: [1, 2, 1])),
            (["a".toList, "db".toList], .edir),
            (["a".toList], .edir)],
           ⟨["a".toList, "db".toList], false⟩)) ∧
    isDirB
      [(["a".toList, "db".toList] ++ [metaName],
          .efile (LazyType.binary.toByte :: [1, 2, 1])),
       (["a".toList, "db".toList], .edir),
       (["a".toList], .edir)] ["a".toList, "db".toList] = true ∧
    isDirB
      [(["a".toList, "db".toList] ++ [metaName],
          .efile (LazyType.binary.toByte :: [1, 2, 1])),
       (["a".toList, "db".toList], .edir),
       (["a".toList], .edir)] (["a".toList, "db".toList].take 1) = true ∧
    lookupFS
      [(["a".toList, "db".toList] ++ [metaName],
          .efile (LazyType.binary.toByte :: [1, 2, 1])),
       (["a".toList, "db".toList], .edir),
       (["a".toList], .edir)] (["a".toList, "db".toList] ++ [metaName]) =
      some (.efile (LazyData.new_binary [VERSION.major, VERSION.minor, VERSION.build])) :=
  ⟨by rfl,
   (claim_C9 [] ["a".toList, "db".toList] _ _ (by rfl)).2.1,
   (claim_C9 [] ["a".toList, "db".toList] _ _ (by rfl)).2.2.1 (by decide) 1 (by decide)
     (by decide),
   (claim_C9 [] ["a".toList, "db".toList] _ _ (by rfl)).2.2.2.2.2.1 rfl⟩

/-- Claim C10: a handle obtained from `load_db p` in the Compiled state
has `p` with extension `modb` as its working directory; its disposal
recompiles to the working directory's path with final extension replaced
by `ldb` — irrespective of the archive path `p` originally passed — so
when `p`'s final extension is not `ldb`, disposal never writes the
recompiled archive back to `p` (the entry at `p` is either untouched or,
only in the degenerate case where `p` itself is the working directory,
removed with it — never updated). -/
theorem claim_C10 (fs : FS) (p : Path) (fs1 : FS) (db : LazyDB) (x : Path) (nm : Name)
    (h : LazyDB.load_db fs p = .ok (fs1, db)) (hc : db.compressed = true)
    (hp : p = x ++ [nm]) :
    db.path = withExt p modbExt ∧
    (∀ fs2, dropLazyDB db fs2 =
      match LazyDB.compile db fs2 (withExt (withExt p modbExt) ldbExt) with
      | none => fs2
      | some fsc => removeDirAll fsc (withExt p modbExt)) ∧
    (extName nm ≠ some ldbExt → ∀ fs2,
      lookupFS (dropLazyDB db fs2) p = lookupFS fs2 p ∨
      lookupFS (dropLazyDB db fs2) p = none) := by
  have hpath := load_db_shape h
  refine ⟨hpath, ?_, ?_⟩
  · intro fs2
    unfold dropLazyDB
    rw [if_neg (by simp [hc]), hpath]
  · intro hext fs2
    by_cases hpre : hasPre db.path p = true
    · have hlen : p.length ≤ db.path.length := by
        rw [hpath, withExt_length]
      have heq : db.path = p := eq_of_hasPre_of_length _ _ hpre hlen
      unfold dropLazyDB
      rw [if_neg (by simp [hc])]
      cases hcomp : LazyDB.compile db fs2 (withExt db.path ldbExt) with
      | none => exact Or.inl rfl
      | some fsc =>
        right
        rw [heq]
        exact lookupFS_removeDirAll_under _ _ _ (hasPre_refl _)
    · left
      apply dropLazyDB_lookup db fs2 p
      · rw [hpath]
        exact path_ne_ldb_target p x nm hp hext
      · rw [hpath]
        exact path_ne_tmptar_target p x nm hp
      · simpa using hpre

/-- Witness for C10 on a concrete archive `db.xyz`: the working directory
is `db.modb`, and disposal leaves the entry at `db.xyz` alone. -/
theorem claim_C10_witness :
    (LazyDB.load_db
      [(["db.xyz".toList],
        .ectar [([metaName], .pfile (LazyType.binary.toByte :: [1, 2, 1]))])]
      ["db.xyz".toList] =
      .ok ([(["db.modb".toList] ++ [metaName],
              .efile (LazyType.binary.toByte :: [1, 2, 1])),
            (["db.modb".toList], .edir),
            (["db.xyz".toList],
              .ectar [([metaName], .pfile (LazyType.binary.toByte :: [1, 2, 1]))])],
           ⟨["db.modb".toList], true⟩)) ∧
    (⟨["db.modb".toList], true⟩ : LazyDB).path = withExt ["db.xyz".toList] modbExt ∧
    (extName "db.xyz".toList ≠ some ldbExt) ∧
    (lookupFS
        (dropLazyDB ⟨["db.modb".toList], true⟩
          [(["db.modb".toList] ++ [metaName],
              .efile (LazyType.binary.toByte :: [1, 2, 1])),
           (["db.modb".toList], .edir),
           (["db.xyz".toList],
             .ectar [([metaName], .pfile (LazyType.binary.toByte :: [1, 2, 1]))])])
        ["db.xyz".toList] =
      lookupFS
        [(["db.modb".toList] ++ [metaName],
            .efile (LazyType.binary.toByte :: [1, 2, 1])),
         (["db.modb".toList], .edir),
         (["db.xyz".toList],
           .ectar [([metaName], .pfile (LazyType.binary.toByte :: [1, 2, 1]))])]
        ["db.xyz".toList] ∨
     lookupFS
        (dropLazyDB ⟨["db.modb".toList], true⟩
          [(["db.modb".toList] ++ [metaName],
              .efile (LazyType.binary.toByte :: [1, 2, 1])),
           (["db.modb".toList], .edir),
           (["db.xyz".toList],
             .ectar [([metaName], .pfile (LazyType.binary.toByte :: [1, 2, 1]))])])
        ["db.xyz".toList] = none) :=
  by
  have H := claim_C10
    [(["db.xyz".toList],
      .ectar [([metaName], .pfile (LazyType.binary.toByte :: [1, 2, 1]))])]
    ["db.xyz".toList]
    [(["db.modb".toList] ++ [metaName], .efile (LazyType.binary.toByte :: [1, 2, 1])),
     (["db.modb".toList], .edir),
     (["db.xyz".toList],
       .ectar [([metaName], .pfile (LazyType.binary.toByte :: [1, 2, 1]))])]
    ⟨["db.modb".toList], true⟩ [] ("db.xyz".toList) (by rfl) rfl (by rfl)
  exact ⟨by rfl, H.1, by decide, H.2.2 (by decide) _⟩

end LazyDb

